import Mathlib

/-!
Verification of the BEncode decoder in `src/torrent/src/bencoding.rs`.

The Rust code is a nom 7 combinator parser over byte slices.  We embed it
shallowly: a byte buffer is a `List Nat` (each entry a byte value), and a nom
`IResult` is a `PResult`: success with the unconsumed remainder, or one of the
two failing outcomes nom distinguishes that matter here, `Err::Error`
(recoverable: `alt` tries the next branch, `many0`/`many1` stop) and
`Err::Incomplete` (returned by `length_value` on short input; it aborts `alt`
and the `many` loops, and `Finish::finish` panics on it).  `Err::Failure` is
never produced by any parser in this file, so it is not modelled.
-/

/-- Result of a nom parser on a byte list: the remainder and the value on
success, or the failing outcome (`Err::Error` or `Err::Incomplete`). -/
inductive PResult (α : Type) where
  | ok (rest : List Nat) (value : α)
  | error
  | incomplete
deriving DecidableEq

/-- nom `combinator::map`: apply a pure function to the parsed value. -/
def mapP {α β : Type} (p : List Nat → PResult α) (f : α → β) (input : List Nat) : PResult β :=
  match p input with
  | .ok rest a => .ok rest (f a)
  | .error => .error
  | .incomplete => .incomplete

/-- nom `combinator::map_res`: apply a fallible function to the parsed value;
its failure becomes `Err::Error` (kind `MapRes`). -/
def mapRes {α β : Type} (p : List Nat → PResult α) (f : α → Option β) (input : List Nat) :
    PResult β :=
  match p input with
  | .ok rest a =>
    match f a with
    | some b => .ok rest b
    | none => .error
  | .error => .error
  | .incomplete => .incomplete

/-- nom `bytes::complete::tag`: the input must start with the given bytes;
a mismatch or a too-short input is `Err::Error`. -/
def tagP (t : List Nat) (input : List Nat) : PResult Unit :=
  if input.take t.length = t then .ok (input.drop t.length) () else .error

/-- Split the input at the first occurrence of byte `b`: the prefix before it
and the suffix from it on; `none` when `b` does not occur. -/
def takeUntilGo (b : Nat) : List Nat → Option (List Nat × List Nat)
  | [] => none
  | c :: cs =>
    if c = b then some ([], c :: cs)
    else
      match takeUntilGo b cs with
      | some (pre, suf) => some (c :: pre, suf)
      | none => none

/-- nom `bytes::complete::take_until` for the one-byte needle used by the
source (`BEncoding::END`): consume up to but not including the first
occurrence; `Err::Error` when the needle is absent. -/
def takeUntilB (b : Nat) (input : List Nat) : PResult (List Nat) :=
  match takeUntilGo b input with
  | some (pre, suf) => .ok suf pre
  | none => .error

/-- nom `bytes::complete::is_not("\0")`: the maximal nonempty run of bytes
that are not NUL; an empty run (NUL first, or empty input) is `Err::Error`. -/
def isNotNul (input : List Nat) : PResult (List Nat) :=
  match input.takeWhile (fun c => c != 0) with
  | [] => .error
  | pre => .ok (input.drop pre.length) pre

/-- Loop of nom `character::complete::u32`: fold decimal digits with a checked
`u32` accumulator, stopping before the first non-digit; overflow of `u32` is
`Err::Error`. -/
def u32Go (value : Nat) : List Nat → PResult Nat
  | [] => .ok [] value
  | c :: cs =>
    if 48 ≤ c ∧ c ≤ 57 then
      if value * 10 + (c - 48) ≤ 4294967295 then u32Go (value * 10 + (c - 48)) cs
      else .error
    else .ok (c :: cs) value

/-- nom `character::complete::u32`: at least one decimal digit, value checked
against `u32::MAX`. -/
def nomU32 : List Nat → PResult Nat
  | [] => .error
  | c :: cs => if 48 ≤ c ∧ c ≤ 57 then u32Go 0 (c :: cs) else .error

/-- nom `sequence::pair`: run two parsers in sequence, returning both values. -/
def pairP {α β : Type} (p : List Nat → PResult α) (q : List Nat → PResult β)
    (input : List Nat) : PResult (α × β) :=
  match p input with
  | .ok i1 a =>
    match q i1 with
    | .ok i2 b => .ok i2 (a, b)
    | .error => .error
    | .incomplete => .incomplete
  | .error => .error
  | .incomplete => .incomplete

/-- nom `sequence::preceded`: run two parsers, keeping the second value. -/
def precededP {α β : Type} (p : List Nat → PResult α) (q : List Nat → PResult β)
    (input : List Nat) : PResult β :=
  match p input with
  | .ok i1 _ => q i1
  | .error => .error
  | .incomplete => .incomplete

/-- nom `sequence::delimited`: run three parsers, keeping the middle value. -/
def delimitedP {α β γ : Type} (p : List Nat → PResult α) (q : List Nat → PResult β)
    (r : List Nat → PResult γ) (input : List Nat) : PResult β :=
  match p input with
  | .ok i1 _ =>
    match q i1 with
    | .ok i2 b =>
      match r i2 with
      | .ok i3 _ => .ok i3 b
      | .error => .error
      | .incomplete => .incomplete
    | .error => .error
    | .incomplete => .incomplete
  | .error => .error
  | .incomplete => .incomplete

/-- nom `multi::length_value`: the first parser yields a byte count; that many
bytes are split off (too few remaining is `Err::Incomplete`) and the second
parser runs on the split-off slice, its own leftover being discarded; the
second parser answering `Incomplete` is turned into `Err::Error` (`Complete`). -/
def lengthValue {α : Type} (f : List Nat → PResult Nat) (g : List Nat → PResult α)
    (input : List Nat) : PResult α :=
  match f input with
  | .ok i len =>
    if i.length < len then .incomplete
    else
      match g (i.take len) with
      | .ok _ o => .ok (i.drop len) o
      | .error => .error
      | .incomplete => .error
  | .error => .error
  | .incomplete => .incomplete

/-- nom `branch::alt` over the four branches of `parse_item`: on `Err::Error`
the next branch is tried; `Err::Incomplete` is returned at once. -/
def alt4 {α : Type} (p1 p2 p3 p4 : List Nat → PResult α) (input : List Nat) : PResult α :=
  match p1 input with
  | .error =>
    match p2 input with
    | .error =>
      match p3 input with
      | .error => p4 input
      | r => r
    | r => r
  | r => r

/-- `Item` from the source: a single BEncode item.  `ByteArray(Vec<u8>)` is a
byte list, `Integer(usize)` a natural bounded by construction, and
`Dictionary(HashMap<String, Item>)` is modelled as an association list from
UTF-8 code-point sequences (the Rust `String` keys) to items, with the
`HashMap` insertion semantics given by `hmInsert` below. -/
inductive Item where
  | byteArray (bytes : List Nat)
  | integer (n : Nat)
  | dictionary (entries : List (List Nat × Item))
  | list (items : List Item)

/-- Whether a byte is a UTF-8 continuation byte (0x80 to 0xBF). -/
def contB (b : Nat) : Bool := decide (128 ≤ b) && decide (b ≤ 191)

/-- Valid second byte of a three-byte UTF-8 sequence led by `b0` (Rust's
`run_utf8_validation` table: E0 requires A0..BF, ED requires 80..9F). -/
def utf8Snd3 (b0 b1 : Nat) : Bool :=
  if b0 = 224 then decide (160 ≤ b1) && decide (b1 ≤ 191)
  else if b0 = 237 then decide (128 ≤ b1) && decide (b1 ≤ 159)
  else contB b1

/-- Valid second byte of a four-byte UTF-8 sequence led by `b0` (F0 requires
90..BF, F4 requires 80..8F). -/
def utf8Snd4 (b0 b1 : Nat) : Bool :=
  if b0 = 240 then decide (144 ≤ b1) && decide (b1 ≤ 191)
  else if b0 = 244 then decide (128 ≤ b1) && decide (b1 ≤ 143)
  else contB b1

/-- `std::str::from_utf8` followed by reading the characters: decode a byte
list to its code points, `none` exactly when the bytes are not valid UTF-8
(overlong forms, surrogates and out-of-range leads rejected, as in Rust). -/
def utf8Decode : List Nat → Option (List Nat)
  | [] => some []
  | b0 :: rest =>
    if b0 < 128 then (utf8Decode rest).map (fun cps => b0 :: cps)
    else
      match rest with
      | [] => none
      | b1 :: rest1 =>
        if 194 ≤ b0 ∧ b0 ≤ 223 then
          if contB b1 then
            (utf8Decode rest1).map (fun cps => ((b0 - 192) * 64 + (b1 - 128)) :: cps)
          else none
        else if 224 ≤ b0 ∧ b0 ≤ 239 then
          match rest1 with
          | [] => none
          | b2 :: rest2 =>
            if utf8Snd3 b0 b1 && contB b2 then
              (utf8Decode rest2).map
                (fun cps => ((b0 - 224) * 4096 + (b1 - 128) * 64 + (b2 - 128)) :: cps)
            else none
        else if 240 ≤ b0 ∧ b0 ≤ 244 then
          match rest1 with
          | [] => none
          | b2 :: rest2 =>
            match rest2 with
            | [] => none
            | b3 :: rest3 =>
              if utf8Snd4 b0 b1 && contB b2 && contB b3 then
                (utf8Decode rest3).map
                  (fun cps => ((b0 - 240) * 262144 + (b1 - 128) * 4096 + (b2 - 128) * 64
                    + (b3 - 128)) :: cps)
              else none
        else none

/-- `usize::MAX` on the 64-bit host. -/
def USIZE_MAX : Nat := 18446744073709551615

/-- Digit loop of Rust `from_str_radix` for `usize`: every remaining character
must be an ASCII decimal digit and the checked accumulator must stay within
`usize::MAX`. -/
def parseDigitsGo (acc : Nat) : List Nat → Option Nat
  | [] => some acc
  | c :: cs =>
    if 48 ≤ c ∧ c ≤ 57 then
      if acc * 10 + (c - 48) ≤ USIZE_MAX then parseDigitsGo (acc * 10 + (c - 48)) cs
      else none
    else none

/-- Rust `str::parse::<usize>` over the string's code points: empty input
fails, an optional leading plus sign is accepted (a lone plus fails), then a
nonempty run of ASCII digits with checked accumulation; a leading minus falls
into the digit loop and fails there, as in `from_str_radix` for an unsigned
target. -/
def rustParseUsize : List Nat → Option Nat
  | [] => none
  | c :: cs =>
    if c = 43 then
      match cs with
      | [] => none
      | _ => parseDigitsGo 0 cs
    else parseDigitsGo 0 (c :: cs)

/-- `HashMap::insert` as observed through lookups: replace the value of an
existing key, otherwise add the binding. -/
def hmInsert (key : List Nat) (v : Item) : List (List Nat × Item) → List (List Nat × Item)
  | [] => [(key, v)]
  | (k2, v2) :: rest => if k2 = key then (k2, v) :: rest else (k2, v2) :: hmInsert key v rest

/-- `HashMap::get`. -/
def hmGet (key : List Nat) : List (List Nat × Item) → Option Item
  | [] => none
  | (k2, v2) :: rest => if k2 = key then some v2 else hmGet key rest

/-- The closure of `parse_dictionary`'s `map_res`, iterated:
`std::str::from_utf8` on each raw key, short-circuiting on failure, and the
`collect::<Result<HashMap<String, Item>, _>>` insertion of the decoded pairs in
parse order. -/
def collectGo (acc : List (List Nat × Item)) : List (List Nat × Item) →
    Option (List (List Nat × Item))
  | [] => some acc
  | (k, v) :: rest =>
    match utf8Decode k with
    | some key => collectGo (hmInsert key v acc) rest
    | none => none

/-- The whole `map_res` closure of `parse_dictionary`, starting from the empty
map. -/
def collectPairs (pairs : List (List Nat × Item)) : Option (List (List Nat × Item)) :=
  collectGo [] pairs

/-- The value of the last pair of the raw pair list whose key decodes to
`key`; used to express the duplicate-key behaviour of the `HashMap` collect. -/
def lastValue (key : List Nat) : List (List Nat × Item) → Option Item
  | [] => none
  | (k, v) :: rest =>
    match lastValue key rest with
    | some v2 => some v2
    | none => if utf8Decode k = some key then some v else none

/-- `parse_integer`: `map_res(map_res(delimited(tag("i"), take_until("e"),
tag("e")), from_utf8), |s| s.parse::<usize>())`. -/
def parse_integer (input : List Nat) : PResult Nat :=
  mapRes (mapRes (delimitedP (tagP [105]) (takeUntilB 101) (tagP [101])) utf8Decode)
    rustParseUsize input

/-- `parse_bytearray`: `length_value(map(u32, |x| if x > 0 { x + 1 } else
{ 0 }), preceded(tag(":"), is_not("\0")))`.  The `x + 1` is Rust `u32`
addition; it wraps at `u32::MAX` (release-profile semantics; a debug build
would panic there instead). -/
def parse_bytearray (input : List Nat) : PResult (List Nat) :=
  lengthValue (mapP nomU32 (fun x => if 0 < x then (x + 1) % 4294967296 else 0))
    (precededP (tagP [58]) isNotNul) input

/-- nom `multi::many0`, fuelled: collect results until the parser answers
`Err::Error`; a successful parse that consumes nothing is `Err::Error` (nom's
infinite-loop guard compares the remaining length).  The fuel only bounds the
loop for Lean's termination checker; exhaustion yields `Err::Error` and never
occurs at the fuel the driver supplies. -/
def many0P {α : Type} (p : List Nat → PResult α) : Nat → List Nat → PResult (List α)
  | 0, _ => .error
  | fuel + 1, input =>
    match p input with
    | .error => .ok input []
    | .incomplete => .incomplete
    | .ok i1 o =>
      if i1.length = input.length then .error
      else
        match many0P p fuel i1 with
        | .ok rest os => .ok rest (o :: os)
        | .error => .error
        | .incomplete => .incomplete

/-- Body of `parse_list` for a given item parser: `delimited(tag("l"),
many0(parse_item), tag("e"))`. -/
def parse_listF (item : List Nat → PResult Item) (fuel : Nat) (input : List Nat) :
    PResult (List Item) :=
  delimitedP (tagP [108]) (many0P item fuel) (tagP [101]) input

/-- Body of `parse_dictionary` for a given item parser: `map_res(delimited(
tag("d"), many0(pair(parse_bytearray, parse_item)), tag("e")), collect)`. -/
def parse_dictionaryF (item : List Nat → PResult Item) (fuel : Nat) (input : List Nat) :
    PResult (List (List Nat × Item)) :=
  mapRes (delimitedP (tagP [100]) (many0P (pairP parse_bytearray item) fuel) (tagP [101]))
    collectPairs input

/-- `parse_item`: `alt((map(parse_integer, Integer), map(parse_list, List),
map(parse_dictionary, Dictionary), map(parse_bytearray, ByteArray)))`.  The
recursion through lists and dictionaries is paid for with fuel. -/
def parse_item : Nat → List Nat → PResult Item
  | 0 => fun _ => .error
  | fuel + 1 => fun input =>
    alt4 (mapP parse_integer Item.integer)
      (mapP (parse_listF (parse_item fuel) fuel) Item.list)
      (mapP (parse_dictionaryF (parse_item fuel) fuel) Item.dictionary)
      (mapP parse_bytearray Item.byteArray) input

/-- `parse_list` at a given fuel. -/
def parse_list (fuel : Nat) : List Nat → PResult (List Item) :=
  parse_listF (parse_item fuel) fuel

/-- `parse_dictionary` at a given fuel. -/
def parse_dictionary (fuel : Nat) : List Nat → PResult (List (List Nat × Item)) :=
  parse_dictionaryF (parse_item fuel) fuel

/-- The `many0(pair(parse_bytearray, parse_item))` inside `parse_dictionary`,
named so that theorems can speak about the parsed raw pairs. -/
def many0Pairs (fuel : Nat) : List Nat → PResult (List (List Nat × Item)) :=
  many0P (pairP parse_bytearray (parse_item fuel)) fuel

/-- nom `multi::many1`: the first application must succeed (its errors
propagate), then the loop of `many0` continues. -/
def many1P {α : Type} (p : List Nat → PResult α) (fuel : Nat) (input : List Nat) :
    PResult (List α) :=
  match p input with
  | .error => .error
  | .incomplete => .incomplete
  | .ok i1 o =>
    match many0P p fuel i1 with
    | .ok rest os => .ok rest (o :: os)
    | .error => .error
    | .incomplete => .incomplete

/-- Outcome of `parse_bytes`, i.e. of `many1(parse_item)(input).finish()`:
`Finish::finish` maps `Ok` to `Ok` (discarding the remainder), `Err::Error` to
`Err`, and panics on `Err::Incomplete`. -/
inductive FinishResult (α : Type) where
  | ok (value : α)
  | err
  | panic
deriving DecidableEq

/-- Fuel the driver hands to `parse_item`: every pass through the
item/list/dictionary recursion consumes at least one input byte and at most
four fuel, so this bound is never exhausted. -/
def parserFuel (input : List Nat) : Nat := 4 * input.length + 4

/-- `parse_bytes`: `many1(parse_item)(input).finish().map(|(_remaining,
items)| items)` — the unconsumed remainder is dropped, and `finish` panics on
`Incomplete`. -/
def parse_bytes (input : List Nat) : FinishResult (List Item) :=
  match many1P (parse_item (parserFuel input)) (parserFuel input) input with
  | .ok _remaining items => .ok items
  | .error => .err
  | .incomplete => .panic

/-- The `BEncoding` struct: an entire parsed BEncode snippet. -/
structure BEncoding where
  items : List Item

/-- Observable outcome of `BEncoding::decode`: `Some(BEncoding)`, `None`, or a
panic escaping the call. -/
inductive DecodeResult where
  | success (b : BEncoding)
  | failure
  | panic

/-- `BEncoding::decode`: `Some(Self { items: parse_bytes(bytes).ok()? })`,
with the panic of `finish` recorded as its own outcome. -/
def BEncoding.decode (bytes : List Nat) : DecodeResult :=
  match parse_bytes bytes with
  | .ok items => .success ⟨items⟩
  | .err => .failure
  | .panic => .panic

/-- The bytes of a Rust `&str`, as `str::as_bytes` exposes them. -/
def strBytes (s : String) : List Nat := s.toUTF8.toList.map (fun b => b.toNat)

/-- `BEncoding::decode_str`: `Self::decode(data.as_bytes())`. -/
def BEncoding.decode_str (data : String) : DecodeResult :=
  BEncoding.decode (strBytes data)

/-! ### Helper lemmas about the combinators -/

theorem tagP_cons_self (b : Nat) (x : List Nat) : tagP [b] (b :: x) = .ok x () := by
  simp [tagP]

theorem takeUntilGo_append (b : Nat) (mid suf : List Nat) (h : b ∉ mid) :
    takeUntilGo b (mid ++ b :: suf) = some (mid, b :: suf) := by
  induction mid with
  | nil => simp [takeUntilGo]
  | cons c cs ih =>
    have hc : c ≠ b := by
      intro hcb
      exact h (hcb ▸ List.mem_cons_self c cs)
    have hcs : b ∉ cs := fun hm => h (List.mem_cons_of_mem c hm)
    simp only [List.cons_append, takeUntilGo, if_neg hc, List.append_eq, ih hcs]

theorem parse_integer_decompose (mid rest : List Nat) (h : 101 ∉ mid) :
    parse_integer (105 :: (mid ++ 101 :: rest)) =
      match (utf8Decode mid).bind rustParseUsize with
      | some n => .ok rest n
      | none => .error := by
  unfold parse_integer
  have h1 : tagP [105] (105 :: (mid ++ 101 :: rest)) = .ok (mid ++ 101 :: rest) () :=
    tagP_cons_self ..
  have h2 : takeUntilB 101 (mid ++ 101 :: rest) = .ok (101 :: rest) mid := by
    unfold takeUntilB
    rw [takeUntilGo_append 101 mid rest h]
  have h3 : tagP [101] (101 :: rest) = .ok rest () := tagP_cons_self ..
  simp only [mapRes, delimitedP, h1, h2, h3]
  cases hu : utf8Decode mid with
  | none => rfl
  | some cps =>
    simp only [Option.some_bind]
    cases hr : rustParseUsize cps with
    | none => simp [hr]
    | some n => simp [hr]

theorem utf8Decode_ascii (bs : List Nat) (h : ∀ b ∈ bs, b < 128) : utf8Decode bs = some bs := by
  induction bs with
  | nil => rfl
  | cons b0 rest ih =>
    have hb : b0 < 128 := h b0 (List.mem_cons_self b0 rest)
    have hrest : utf8Decode rest = some rest :=
      ih (fun b hbm => h b (List.mem_cons_of_mem b0 hbm))
    rw [utf8Decode.eq_def]
    simp only []
    rw [if_pos hb, hrest]
    rfl

theorem utf8Decode_cons_hi (b0 : Nat) (rest cps : List Nat) (h0 : ¬ b0 < 128)
    (h : utf8Decode (b0 :: rest) = some cps) :
    ∃ cp cps2, cps = cp :: cps2 ∧ 128 ≤ cp := by
  rw [utf8Decode.eq_def] at h
  simp only [] at h
  rw [if_neg h0] at h
  cases rest with
  | nil => nomatch h
  | cons b1 rest1 =>
    simp only [] at h
    by_cases h2 : 194 ≤ b0 ∧ b0 ≤ 223
    · rw [if_pos h2] at h
      by_cases hc1 : contB b1 = true
      · rw [if_pos hc1] at h
        cases hrec : utf8Decode rest1 with
        | none => rw [hrec] at h; nomatch h
        | some cps2 =>
          rw [hrec] at h
          simp only [Option.map_some', Option.some.injEq] at h
          refine ⟨_, cps2, h.symm, ?_⟩
          simp only [contB, Bool.and_eq_true, decide_eq_true_eq] at hc1
          omega
      · rw [if_neg hc1] at h; nomatch h
    · rw [if_neg h2] at h
      by_cases h3 : 224 ≤ b0 ∧ b0 ≤ 239
      · rw [if_pos h3] at h
        cases rest1 with
        | nil => nomatch h
        | cons b2 rest2 =>
          simp only [] at h
          by_cases hc2 : (utf8Snd3 b0 b1 && contB b2) = true
          · rw [if_pos hc2] at h
            cases hrec : utf8Decode rest2 with
            | none => rw [hrec] at h; nomatch h
            | some cps2 =>
              rw [hrec] at h
              simp only [Option.map_some', Option.some.injEq] at h
              refine ⟨_, cps2, h.symm, ?_⟩
              simp only [Bool.and_eq_true] at hc2
              have hb1 : 128 ≤ b1 ∧ (b0 = 224 → 160 ≤ b1) := by
                have hs := hc2.1
                unfold utf8Snd3 at hs
                split at hs
                · simp only [Bool.and_eq_true, decide_eq_true_eq] at hs
                  omega
                · split at hs
                  · simp only [Bool.and_eq_true, decide_eq_true_eq] at hs
                    omega
                  · simp only [contB, Bool.and_eq_true, decide_eq_true_eq] at hs
                    omega
              rcases Nat.eq_or_lt_of_le h3.1 with he | hlt
              · have h160 := hb1.2 he.symm
                omega
              · have hge : 4096 ≤ (b0 - 224) * 4096 := by omega
                omega
          · rw [if_neg hc2] at h; nomatch h
      · rw [if_neg h3] at h
        by_cases h4 : 240 ≤ b0 ∧ b0 ≤ 244
        · rw [if_pos h4] at h
          cases rest1 with
          | nil => nomatch h
          | cons b2 rest2 =>
            cases rest2 with
            | nil => nomatch h
            | cons b3 rest3 =>
              simp only [] at h
              by_cases hc3 : (utf8Snd4 b0 b1 && contB b2 && contB b3) = true
              · rw [if_pos hc3] at h
                cases hrec : utf8Decode rest3 with
                | none => rw [hrec] at h; nomatch h
                | some cps2 =>
                  rw [hrec] at h
                  simp only [Option.map_some', Option.some.injEq] at h
                  refine ⟨_, cps2, h.symm, ?_⟩
                  simp only [Bool.and_eq_true] at hc3
                  have hb1 : 128 ≤ b1 ∧ (b0 = 240 → 144 ≤ b1) := by
                    have hs := hc3.1.1
                    unfold utf8Snd4 at hs
                    split at hs
                    · simp only [Bool.and_eq_true, decide_eq_true_eq] at hs
                      omega
                    · split at hs
                      · simp only [Bool.and_eq_true, decide_eq_true_eq] at hs
                        omega
                      · simp only [contB, Bool.and_eq_true, decide_eq_true_eq] at hs
                        omega
                  rcases Nat.eq_or_lt_of_le h4.1 with he | hlt
                  · have h144 := hb1.2 he.symm
                    have hge : 16 * 4096 ≤ (b1 - 128) * 4096 := by omega
                    omega
                  · have hge : 262144 ≤ (b0 - 240) * 262144 := by omega
                    omega
              · rw [if_neg hc3] at h; nomatch h
        · rw [if_neg h4] at h; nomatch h

theorem utf8Decode_ascii_of_cps (bs cps : List Nat) (h : utf8Decode bs = some cps)
    (hlt : ∀ c ∈ cps, c < 128) : bs = cps := by
  induction bs generalizing cps with
  | nil =>
    have hn : some [] = some cps := h
    exact Option.some.inj hn
  | cons b0 rest ih =>
    by_cases h0 : b0 < 128
    · rw [utf8Decode.eq_def] at h
      simp only [] at h
      rw [if_pos h0] at h
      cases hrec : utf8Decode rest with
      | none => rw [hrec] at h; nomatch h
      | some cps2 =>
        rw [hrec] at h
        simp only [Option.map_some', Option.some.injEq] at h
        obtain rfl : b0 :: cps2 = cps := h
        have hrest : rest = cps2 :=
          ih cps2 hrec (fun c hc => hlt c (List.mem_cons_of_mem b0 hc))
        rw [hrest]
    · obtain ⟨cp, cps2, rfl, hcp⟩ := utf8Decode_cons_hi b0 rest cps h0 h
      have hlt2 := hlt cp (List.mem_cons_self cp cps2)
      omega

theorem parseDigitsGo_digits (l : List Nat) (acc n : Nat) (h : parseDigitsGo acc l = some n) :
    ∀ c ∈ l, 48 ≤ c ∧ c ≤ 57 := by
  induction l generalizing acc with
  | nil => intro c hc; nomatch hc
  | cons c cs ih =>
    intro d hd
    simp only [parseDigitsGo] at h
    by_cases hc : 48 ≤ c ∧ c ≤ 57
    · rw [if_pos hc] at h
      by_cases hov : acc * 10 + (c - 48) ≤ USIZE_MAX
      · rw [if_pos hov] at h
        rcases List.mem_cons.mp hd with rfl | hdm
        · exact hc
        · exact ih (acc * 10 + (c - 48)) h d hdm
      · rw [if_neg hov] at h; nomatch h
    · rw [if_neg hc] at h; nomatch h

theorem parseDigitsGo_le (l : List Nat) (acc n : Nat) (h : parseDigitsGo acc l = some n) :
    n = acc ∨ n ≤ USIZE_MAX := by
  induction l generalizing acc with
  | nil =>
    left
    exact (Option.some.inj h).symm
  | cons c cs ih =>
    simp only [parseDigitsGo] at h
    by_cases hc : 48 ≤ c ∧ c ≤ 57
    · rw [if_pos hc] at h
      by_cases hov : acc * 10 + (c - 48) ≤ USIZE_MAX
      · rw [if_pos hov] at h
        rcases ih (acc * 10 + (c - 48)) h with he | hle
        · right; omega
        · right; exact hle
      · rw [if_neg hov] at h; nomatch h
    · rw [if_neg hc] at h; nomatch h

theorem parseDigitsGo_val (l : List Nat) (acc n : Nat) (h : parseDigitsGo acc l = some n) :
    n = l.foldl (fun a c => a * 10 + (c - 48)) acc := by
  induction l generalizing acc with
  | nil =>
    simp only [List.foldl_nil]
    exact (Option.some.inj h).symm
  | cons c cs ih =>
    simp only [parseDigitsGo] at h
    by_cases hc : 48 ≤ c ∧ c ≤ 57
    · rw [if_pos hc] at h
      by_cases hov : acc * 10 + (c - 48) ≤ USIZE_MAX
      · rw [if_pos hov] at h
        simp only [List.foldl_cons]
        exact ih (acc * 10 + (c - 48)) h
      · rw [if_neg hov] at h; nomatch h
    · rw [if_neg hc] at h; nomatch h

theorem rustParseUsize_shape (cps : List Nat) (n : Nat) (h : rustParseUsize cps = some n) :
    (∀ c ∈ cps, 48 ≤ c ∧ c ≤ 57) ∨
      (∃ tl, cps = 43 :: tl ∧ tl ≠ [] ∧ ∀ c ∈ tl, 48 ≤ c ∧ c ≤ 57) := by
  cases cps with
  | nil => nomatch h
  | cons c cs =>
    simp only [rustParseUsize] at h
    by_cases hc : c = 43
    · rw [if_pos hc] at h
      cases cs with
      | nil => nomatch h
      | cons d ds =>
        right
        exact ⟨d :: ds, by rw [hc], by simp, parseDigitsGo_digits _ _ _ h⟩
    · rw [if_neg hc] at h
      left
      exact parseDigitsGo_digits _ _ _ h

/-- The value a list of ASCII digits denotes. -/
def digitsVal (l : List Nat) : Nat := l.foldl (fun a c => a * 10 + (c - 48)) 0

theorem hmGet_insert_self (key : List Nat) (v : Item) (m : List (List Nat × Item)) :
    hmGet key (hmInsert key v m) = some v := by
  induction m with
  | nil => simp [hmInsert, hmGet]
  | cons p rest ih =>
    obtain ⟨k2, v2⟩ := p
    simp only [hmInsert]
    by_cases hk : k2 = key
    · rw [if_pos hk]
      simp [hmGet, hk]
    · rw [if_neg hk]
      simp [hmGet, hk, ih]

theorem hmGet_insert_ne (key k : List Nat) (v : Item) (m : List (List Nat × Item))
    (h : key ≠ k) : hmGet k (hmInsert key v m) = hmGet k m := by
  induction m with
  | nil => simp [hmInsert, hmGet, h]
  | cons p rest ih =>
    obtain ⟨k2, v2⟩ := p
    simp only [hmInsert]
    by_cases hk : k2 = key
    · rw [if_pos hk]
      simp only [hmGet]
      rw [if_neg (fun he : k2 = k => h (hk.symm.trans he)),
        if_neg (fun he : k2 = k => h (hk.symm.trans he))]
    · rw [if_neg hk]
      simp only [hmGet]
      by_cases hk2 : k2 = k
      · rw [if_pos hk2, if_pos hk2]
      · rw [if_neg hk2, if_neg hk2, ih]

theorem collectGo_lookup (pairs : List (List Nat × Item)) (acc m : List (List Nat × Item))
    (h : collectGo acc pairs = some m) (key : List Nat) :
    hmGet key m =
      match lastValue key pairs with
      | some v => some v
      | none => hmGet key acc := by
  induction pairs generalizing acc with
  | nil =>
    obtain rfl : acc = m := Option.some.inj h
    simp [lastValue]
  | cons p rest ih =>
    obtain ⟨k, v⟩ := p
    simp only [collectGo] at h
    cases hk : utf8Decode k with
    | none => rw [hk] at h; nomatch h
    | some kk =>
      rw [hk] at h
      rw [ih (hmInsert kk v acc) h]
      simp only [lastValue, hk]
      cases hl : lastValue key rest with
      | some v2 => rfl
      | none =>
        by_cases hkey : kk = key
        · subst hkey
          simp [hmGet_insert_self]
        · rw [if_neg (fun he : some kk = some key => hkey (Option.some.inj he))]
          exact hmGet_insert_ne kk key v acc hkey

theorem collectGo_some (pairs : List (List Nat × Item))
    (h : ∀ p ∈ pairs, (utf8Decode p.1).isSome = true) (acc : List (List Nat × Item)) :
    ∃ m, collectGo acc pairs = some m := by
  induction pairs generalizing acc with
  | nil => exact ⟨acc, rfl⟩
  | cons p rest ih =>
    obtain ⟨k, v⟩ := p
    have hk := h (k, v) (List.mem_cons_self _ _)
    cases hu : utf8Decode k with
    | none => rw [hu] at hk; nomatch hk
    | some kk =>
      obtain ⟨m, hm⟩ := ih (fun q hq => h q (List.mem_cons_of_mem _ hq)) (hmInsert kk v acc)
      exact ⟨m, by simp only [collectGo, hu]; exact hm⟩

theorem collectGo_isSome_keys (pairs : List (List Nat × Item))
    (acc m : List (List Nat × Item)) (h : collectGo acc pairs = some m) :
    ∀ p ∈ pairs, (utf8Decode p.1).isSome = true := by
  induction pairs generalizing acc with
  | nil => intro p hp; nomatch hp
  | cons q rest ih =>
    intro p hp
    obtain ⟨k, v⟩ := q
    simp only [collectGo] at h
    cases hu : utf8Decode k with
    | none => rw [hu] at h; nomatch h
    | some kk =>
      rw [hu] at h
      rcases List.mem_cons.mp hp with rfl | hpm
      · simp [hu]
      · exact ih (hmInsert kk v acc) h p hpm

theorem collectPairs_none (pairs : List (List Nat × Item))
    (h : ∃ p ∈ pairs, utf8Decode p.1 = none) : collectPairs pairs = none := by
  cases hc : collectPairs pairs with
  | none => rfl
  | some m =>
    exfalso
    obtain ⟨p, hp, hnone⟩ := h
    have := collectGo_isSome_keys pairs [] m hc p hp
    rw [hnone] at this
    nomatch this

theorem lastValue_isSome_of_mem (pairs : List (List Nat × Item)) (p : List Nat × Item)
    (hp : p ∈ pairs) (key : List Nat) (hk : utf8Decode p.1 = some key) :
    (lastValue key pairs).isSome = true := by
  induction pairs with
  | nil => nomatch hp
  | cons q rest ih =>
    obtain ⟨k, v⟩ := q
    simp only [lastValue]
    cases hl : lastValue key rest with
    | some v2 => simp
    | none =>
      rcases List.mem_cons.mp hp with rfl | hpm
      · rw [if_pos hk]
        simp
      · have := ih hpm
        rw [hl] at this
        nomatch this

theorem parse_dictionary_decompose (fuel : Nat) (input rest : List Nat)
    (pairs : List (List Nat × Item))
    (h : many0Pairs fuel input = .ok (101 :: rest) pairs) :
    parse_dictionary fuel (100 :: input) =
      match collectPairs pairs with
      | some m => .ok rest m
      | none => .error := by
  have h2 : many0P (pairP parse_bytearray (parse_item fuel)) fuel input
      = .ok (101 :: rest) pairs := h
  unfold parse_dictionary parse_dictionaryF
  have h1 : tagP [100] (100 :: input) = .ok input () := tagP_cons_self ..
  have h3 : tagP [101] (101 :: rest) = .ok rest () := tagP_cons_self ..
  simp only [mapRes, delimitedP, h1, h2, h3]
  cases hc : collectPairs pairs with
  | none => rfl
  | some m => rfl

theorem parse_integer_err_d (input : List Nat) : parse_integer (100 :: input) = .error := by
  unfold parse_integer
  simp [mapRes, delimitedP, tagP]

theorem parse_list_err_d (fuel : Nat) (input : List Nat) :
    parse_list fuel (100 :: input) = .error := by
  unfold parse_list parse_listF
  simp [delimitedP, tagP]

theorem parse_bytearray_err_d (input : List Nat) : parse_bytearray (100 :: input) = .error := by
  unfold parse_bytearray
  simp [lengthValue, mapP, nomU32]

theorem parse_item_dict (fuel : Nat) (input : List Nat) :
    parse_item (fuel + 1) (100 :: input) =
      match parse_dictionary fuel (100 :: input) with
      | .ok r m => .ok r (Item.dictionary m)
      | .error => .error
      | .incomplete => .incomplete := by
  simp only [parse_item, alt4, mapP, parse_integer_err_d,
    show parse_listF (parse_item fuel) fuel = parse_list fuel from rfl, parse_list_err_d,
    show parse_dictionaryF (parse_item fuel) fuel = parse_dictionary fuel from rfl,
    parse_bytearray_err_d]
  cases parse_dictionary fuel (100 :: input) with
  | ok r m => rfl
  | error => rfl
  | incomplete => rfl

theorem parse_item_nil (fuel : Nat) : parse_item fuel [] = .error := by
  cases fuel with
  | zero => rfl
  | succ f => rfl

theorem many0P_parse_item_nil (g fuel : Nat) :
    many0P (parse_item g) (fuel + 1) [] = .ok [] [] := by
  simp only [many0P, parse_item_nil]

theorem parserFuel_succ (input : List Nat) :
    parserFuel input = (4 * input.length + 3) + 1 := by
  unfold parserFuel
  omega

theorem parserFuel_cons (b : Nat) (input : List Nat) :
    parserFuel (b :: input) = (4 * input.length + 7) + 1 := by
  unfold parserFuel
  simp only [List.length_cons]
  omega

theorem decode_first_item_error (input : List Nat)
    (h : parse_item (parserFuel input) input = .error) :
    BEncoding.decode input = .failure := by
  unfold BEncoding.decode parse_bytes many1P
  rw [h]

theorem decode_single_item (input : List Nat) (it : Item)
    (h : parse_item (parserFuel input) input = .ok [] it) :
    BEncoding.decode input = .success ⟨[it]⟩ := by
  unfold BEncoding.decode parse_bytes many1P
  rw [h]
  simp only []
  rw [parserFuel_succ, many0P_parse_item_nil]

/-! ### The claims -/

/-- Claim C7: decoding the empty byte buffer fails.  Top-level parsing is
`many1(parse_item)`, which requires at least one item, so the empty buffer is
a parse failure, not an empty document. -/
theorem decode_empty_buffer_fails : BEncoding.decode [] = .failure := rfl

/-- Claim C8: the buffer of the bytes of le decodes to an empty list and the
buffer of the bytes of de decodes to an empty dictionary: zero items and zero
pairs are valid composites. -/
theorem decode_empty_composites :
    BEncoding.decode [108, 101] = .success ⟨[Item.list []]⟩ ∧
    BEncoding.decode [100, 101] = .success ⟨[Item.dictionary []]⟩ := ⟨rfl, rfl⟩

/-- Claim C9: decoding a text value via the text entry point is exactly
decoding its underlying bytes via the byte-buffer entry point; no charset
transformation is applied. -/
theorem decode_str_eq_decode_bytes (s : String) :
    BEncoding.decode_str s = BEncoding.decode (strBytes s) := rfl

/-- Claim C2 (code bug): byte-string payloads are not treated as arbitrary raw
bytes.  The buffer of the bytes of 1:NUL (declared length 1, payload one NUL
byte) fails to decode because `is_not("\0")` rejects a payload starting with
NUL, and the buffer of the bytes of 3:aNULb decodes successfully but returns
the payload truncated at the NUL (only the byte a) while consuming all five
bytes, contradicting the exact-length contract. -/
theorem parse_bytearray_nul_code_bug :
    BEncoding.decode [49, 58, 0] = .failure ∧
    parse_bytearray [51, 58, 97, 0, 98] = .ok [] [97] ∧
    BEncoding.decode [51, 58, 97, 0, 98] = .success ⟨[Item.byteArray [97]]⟩ :=
  ⟨rfl, rfl, rfl⟩

/-- Claim C3 (code bug): the byte-string production with declared length 0
(the buffer of the bytes of 0:) does not succeed with an empty payload: the
length mapping `if x > 0 { x + 1 } else { 0 }` takes zero bytes, so the inner
`tag(":")` runs on an empty slice and fails, and the whole decode fails. -/
theorem parse_bytearray_empty_code_bug :
    parse_bytearray [48, 58] = .error ∧ BEncoding.decode [48, 58] = .failure := ⟨rfl, rfl⟩

/-- Claim C4 (code bug): decode is not total on arbitrary buffers.  On the
buffer of the bytes of 10:aa (declared length 10, two bytes available)
`length_value` returns `Err::Incomplete`, which propagates through `alt` and
`many1`, and `Finish::finish` in `parse_bytes` panics on `Incomplete` instead
of returning the absent result. -/
theorem decode_truncated_panic_code_bug : BEncoding.decode [49, 48, 58, 97, 97] = .panic := rfl

/-- Claim C1 counterexample: the buffer of the bytes of i1ex begins with the
well-formed item i1e followed by the unconsumed trailing byte x, yet decode
returns a document rather than the absent result: the claim that the
remainder must be empty for success is false of the code. -/
theorem decode_trailing_bytes_counterexample :
    BEncoding.decode [105, 49, 101, 120] = .success ⟨[Item.integer 1]⟩ ∧
    BEncoding.decode [105, 49, 101, 120] ≠ .failure :=
  ⟨rfl, fun h => nomatch h⟩

/-- Claim C1 as amended: `parse_bytes` drops the unconsumed remainder
(`|(_remaining, items)| items`), so whenever the `many1(parse_item)` driver
succeeds leaving a nonempty remainder, decode still succeeds with the items
parsed from the prefix; trailing bytes are silently discarded, not rejected. -/
theorem decode_trailing_bytes_amended (input rest : List Nat) (items : List Item)
    (h : many1P (parse_item (parserFuel input)) (parserFuel input) input = .ok rest items)
    (_hne : rest ≠ []) : BEncoding.decode input = .success ⟨items⟩ := by
  unfold BEncoding.decode parse_bytes
  rw [h]

/-- Witness for the amended Claim C1 at the buffer of the bytes of i1ex. -/
theorem decode_trailing_bytes_amended_witness :
    BEncoding.decode [105, 49, 101, 120] = .success ⟨[Item.integer 1]⟩ :=
  decode_trailing_bytes_amended [105, 49, 101, 120] [120] [Item.integer 1] rfl (by simp)

/-- Claim C5 counterexample: the buffer of the bytes of i+1e has the non-digit
byte + before the end marker, yet it decodes successfully to the integer 1,
because Rust's `str::parse::<usize>` accepts an optional leading plus sign. -/
theorem parse_integer_plus_sign_counterexample :
    BEncoding.decode [105, 43, 49, 101] = .success ⟨[Item.integer 1]⟩ ∧
    BEncoding.decode [105, 43, 49, 101] ≠ .failure :=
  ⟨rfl, fun h => nomatch h⟩

/-- Claim C5 as amended: i0e decodes to 0; ie (no digits) fails; i-1e fails
(negative integers unsupported); any non-digit byte before the end marker
fails EXCEPT that a single leading plus sign followed only by digits is
accepted (a quirk of Rust's `str::parse`); and a digit run whose value
exceeds `usize::MAX` fails. -/
theorem parse_integer_amended :
    (BEncoding.decode [105, 48, 101] = .success ⟨[Item.integer 0]⟩) ∧
    (BEncoding.decode [105, 101] = .failure) ∧
    (BEncoding.decode [105, 45, 49, 101] = .failure) ∧
    (∀ mid rest : List Nat, 101 ∉ mid →
      (∃ b ∈ mid, ¬(48 ≤ b ∧ b ≤ 57)) →
      (∀ tl, mid = 43 :: tl → ¬(tl ≠ [] ∧ ∀ b ∈ tl, 48 ≤ b ∧ b ≤ 57)) →
      parse_integer (105 :: (mid ++ 101 :: rest)) = .error) ∧
    (∀ mid rest : List Nat, mid ≠ [] → (∀ b ∈ mid, 48 ≤ b ∧ b ≤ 57) →
      digitsVal mid > USIZE_MAX →
      parse_integer (105 :: (mid ++ 101 :: rest)) = .error) := by
  refine ⟨rfl, rfl, rfl, ?_, ?_⟩
  · intro mid rest hnot hbad hshape
    rw [parse_integer_decompose mid rest hnot]
    cases hu : utf8Decode mid with
    | none => rfl
    | some cps =>
      simp only [Option.some_bind]
      cases hr : rustParseUsize cps with
      | none => rfl
      | some n =>
        exfalso
        obtain ⟨b, hbm, hbd⟩ := hbad
        rcases rustParseUsize_shape cps n hr with hall | ⟨tl, hcps, hne, htl⟩
        · have hlt : ∀ c ∈ cps, c < 128 := fun c hc => by
            have := hall c hc
            omega
          have heq := utf8Decode_ascii_of_cps mid cps hu hlt
          exact hbd (hall b (heq ▸ hbm))
        · have hlt : ∀ c ∈ cps, c < 128 := by
            intro c hc
            rw [hcps] at hc
            rcases List.mem_cons.mp hc with rfl | hcm
            · omega
            · have := htl c hcm
              omega
          have heq := utf8Decode_ascii_of_cps mid cps hu hlt
          exact hshape tl (heq.trans hcps) ⟨hne, htl⟩
  · intro mid rest hne hdig hover
    have hnot : 101 ∉ mid := fun hm => by
      have := hdig 101 hm
      omega
    rw [parse_integer_decompose mid rest hnot]
    rw [utf8Decode_ascii mid (fun b hb => by
      have := hdig b hb
      omega)]
    simp only [Option.some_bind]
    cases hr : rustParseUsize mid with
    | none => rfl
    | some n =>
      exfalso
      cases mid with
      | nil => exact hne rfl
      | cons c cs =>
        have hc := hdig c (List.mem_cons_self c cs)
        simp only [rustParseUsize] at hr
        rw [if_neg (by omega : ¬ c = 43)] at hr
        have hval := parseDigitsGo_val _ _ _ hr
        unfold digitsVal at hover
        rw [← hval] at hover
        rcases parseDigitsGo_le _ _ _ hr with h0 | hle
        · rw [h0] at hover
          unfold USIZE_MAX at hover
          omega
        · unfold USIZE_MAX at hover hle
          omega

/-- Witness for the amended Claim C5: the non-digit byte x inside ixe makes
the integer production fail, and the 20-digit run of i18446744073709551616e
(the value two to the sixty-fourth, one past `usize::MAX`) overflows and
fails. -/
theorem parse_integer_amended_witness :
    parse_integer [105, 120, 101] = .error ∧
    parse_integer [105, 49, 56, 52, 52, 54, 55, 52, 52, 48, 55, 51, 55, 48, 57, 53, 53,
      49, 54, 49, 54, 101] = .error := by
  constructor
  · refine parse_integer_amended.2.2.2.1 [120] [] (by decide) (by decide) ?_
    intro tl htl
    injection htl with ha hb
    exact absurd ha (by decide)
  · exact parse_integer_amended.2.2.2.2
      [49, 56, 52, 52, 54, 55, 52, 52, 48, 55, 51, 55, 48, 57, 53, 53, 49, 54, 49, 54] []
      (by decide) (by decide) (by decide)

/-- Claim C6 counterexample: the buffer of the bytes of d1:a1:NULe is a
well-formed dictionary production whose only key a is valid UTF-8, yet the
dictionary parse fails (the NUL-leading value trips `is_not("\0")` inside
`parse_bytearray`) and the whole decode returns the absent result, refuting
the claim that validity of the keys suffices for the dictionary parse to
succeed. -/
theorem dictionary_key_utf8_counterexample :
    BEncoding.decode [100, 49, 58, 97, 49, 58, 0, 101] = .failure ∧
    parse_dictionary 35 [100, 49, 58, 97, 49, 58, 0, 101] = .error := ⟨rfl, rfl⟩

/-- Claim C6 as amended: when the dictionary body parses, i.e.
`many0(pair(parse_bytearray, parse_item))` succeeds and the end marker
follows, then `parse_dictionary` fails iff some parsed raw key is not valid
UTF-8: with some key invalid it returns an error, with every key valid UTF-8
it succeeds and every key is present in the map as its decoded text; and a
decode whose first top-level item is a dictionary with an invalid key returns
the absent result (a later such dictionary would instead be discarded as
trailing data, see the amended Claim C1). -/
theorem dictionary_key_utf8_amended :
    (∀ (fuel : Nat) (input rest : List Nat) (pairs : List (List Nat × Item)),
      many0Pairs fuel input = .ok (101 :: rest) pairs →
      ((∃ p ∈ pairs, utf8Decode p.1 = none) → parse_dictionary fuel (100 :: input) = .error) ∧
      ((∀ p ∈ pairs, (utf8Decode p.1).isSome = true) →
        ∃ m, parse_dictionary fuel (100 :: input) = .ok rest m ∧ collectPairs pairs = some m ∧
          ∀ p ∈ pairs, ∃ key, utf8Decode p.1 = some key ∧ (hmGet key m).isSome = true)) ∧
    (∀ (input rest : List Nat) (pairs : List (List Nat × Item)),
      many0Pairs (4 * input.length + 7) input = .ok (101 :: rest) pairs →
      (∃ p ∈ pairs, utf8Decode p.1 = none) →
      BEncoding.decode (100 :: input) = .failure) := by
  constructor
  · intro fuel input rest pairs h
    constructor
    · intro hbad
      rw [parse_dictionary_decompose fuel input rest pairs h, collectPairs_none pairs hbad]
    · intro hgood
      obtain ⟨m, hm⟩ := collectGo_some pairs hgood []
      have hcp : collectPairs pairs = some m := hm
      refine ⟨m, ?_, hcp, ?_⟩
      · rw [parse_dictionary_decompose fuel input rest pairs h, hcp]
      · intro p hp
        have hk := hgood p hp
        cases hu : utf8Decode p.1 with
        | none => rw [hu] at hk; nomatch hk
        | some key =>
          refine ⟨key, rfl, ?_⟩
          have hlook := collectGo_lookup pairs [] m hm key
          have hlast := lastValue_isSome_of_mem pairs p hp key hu
          cases hl : lastValue key pairs with
          | none => rw [hl] at hlast; nomatch hlast
          | some v =>
            rw [hl] at hlook
            rw [hlook]
            rfl
  · intro input rest pairs h hbad
    have hd : parse_dictionary (4 * input.length + 7) (100 :: input) = .error := by
      rw [parse_dictionary_decompose _ _ _ _ h, collectPairs_none pairs hbad]
    apply decode_first_item_error
    rw [parserFuel_cons, parse_item_dict, hd]

/-- Witness for the amended Claim C6: the buffer of the bytes of d1:X1:ae,
where X is the byte 255 (not valid UTF-8), fails to decode. -/
theorem dictionary_key_utf8_amended_witness :
    BEncoding.decode [100, 49, 58, 255, 49, 58, 97, 101] = .failure :=
  dictionary_key_utf8_amended.2 [49, 58, 255, 49, 58, 97, 101] [] [([255], Item.byteArray [97])]
    rfl ⟨([255], Item.byteArray [97]), List.mem_cons_self _ _, rfl⟩

/-- Claim C10 counterexample: the buffer of the bytes of d1:X1:a1:X1:be, where
X is the byte 255, is a well-formed dictionary production containing two pairs
with the same key, yet decoding fails (the duplicated key is not valid UTF-8),
refuting the claim that every well-formed dictionary production with duplicate
keys decodes successfully. -/
theorem dictionary_duplicate_key_counterexample :
    BEncoding.decode [100, 49, 58, 255, 49, 58, 97, 49, 58, 255, 49, 58, 98, 101]
      = .failure := rfl

/-- Claim C10 as amended: for a dictionary whose body parses and whose keys
are all valid UTF-8, decoding succeeds even in the presence of duplicate keys,
and the resulting map sends every key to the value of the last pair of the
parse order that decodes to it (earlier occurrences are overwritten by the
`HashMap` collect). -/
theorem dictionary_duplicate_last_wins :
    (∀ (fuel : Nat) (input rest : List Nat) (pairs : List (List Nat × Item)),
      many0Pairs fuel input = .ok (101 :: rest) pairs →
      (∀ p ∈ pairs, (utf8Decode p.1).isSome = true) →
      ∃ m, parse_dictionary fuel (100 :: input) = .ok rest m ∧
        ∀ key, hmGet key m = lastValue key pairs) ∧
    (∀ (input : List Nat) (pairs : List (List Nat × Item)),
      many0Pairs (4 * input.length + 7) input = .ok [101] pairs →
      (∀ p ∈ pairs, (utf8Decode p.1).isSome = true) →
      ∃ m, BEncoding.decode (100 :: input) = .success ⟨[Item.dictionary m]⟩ ∧
        ∀ key, hmGet key m = lastValue key pairs) := by
  constructor
  · intro fuel input rest pairs h hgood
    obtain ⟨m, hm⟩ := collectGo_some pairs hgood []
    refine ⟨m, ?_, ?_⟩
    · rw [parse_dictionary_decompose fuel input rest pairs h,
        show collectPairs pairs = some m from hm]
    · intro key
      rw [collectGo_lookup pairs [] m hm key]
      cases lastValue key pairs with
      | some v => rfl
      | none => rfl
  · intro input pairs h hgood
    obtain ⟨m, hm⟩ := collectGo_some pairs hgood []
    have hd : parse_dictionary (4 * input.length + 7) (100 :: input) = .ok [] m := by
      rw [parse_dictionary_decompose _ _ _ _ h, show collectPairs pairs = some m from hm]
    refine ⟨m, ?_, ?_⟩
    · apply decode_single_item
      rw [parserFuel_cons, parse_item_dict, hd]
    · intro key
      rw [collectGo_lookup pairs [] m hm key]
      cases lastValue key pairs with
      | some v => rfl
      | none => rfl

/-- Witness for the amended Claim C10: the buffer of the bytes of
d1:a1:x1:a1:ye decodes to a single dictionary in which the duplicated key a
maps to the value y of its last occurrence. -/
theorem dictionary_duplicate_last_wins_witness :
    ∃ m, BEncoding.decode [100, 49, 58, 97, 49, 58, 120, 49, 58, 97, 49, 58, 121, 101]
        = .success ⟨[Item.dictionary m]⟩ ∧
      ∀ key, hmGet key m =
        lastValue key [([97], Item.byteArray [120]), ([97], Item.byteArray [121])] :=
  dictionary_duplicate_last_wins.2 [49, 58, 97, 49, 58, 120, 49, 58, 97, 49, 58, 121, 101]
    [([97], Item.byteArray [120]), ([97], Item.byteArray [121])] rfl
    (by
      intro p hp
      rcases List.mem_cons.mp hp with rfl | hp2
      · rfl
      · rcases List.mem_cons.mp hp2 with rfl | hp3
        · rfl
        · nomatch hp3)
